import Mathlib

/-!
# Verification of the gtsam snapshot: SQP nonlinear constraints and the quaternion chart

Shallow embedding of the two source files of this snapshot:

* `src/cpp/testNonlinearConstraint.cpp` — the unary scalar nonlinear-constraint
  test (`g(x) = x^2 - 5`, gradient `2x`), its configurations, and the expected
  linear factors.  The class `NonlinearConstraint1` itself
  (`NonlinearConstraint-inl.h`) is not part of the snapshot, so its operations
  `error_vector`, `equals` and `linearize` are modelled from the specification.
  Doubles are modelled as rationals here; every value exercised by the test is
  exactly representable.

* `src/gtsam/geometry/Quaternion.h` — `MakeQuaternionChart::Expmap` and
  `MakeQuaternionChart::Logmap`.  Doubles are modelled as real numbers,
  `std::acos`/`std::sqrt`/`M_PI` as `Real.arccos`/`Real.sqrt`/`Real.pi`, and
  Eigen's `omega.isZero()` as the exact test `omega = 0`.
-/

namespace gtsam

/-! ## Embedding of the SQP constraint test (src/cpp/testNonlinearConstraint.cpp) -/

/-- `Vector` of the C++ sources (a dynamically sized column vector of doubles),
modelled as a list of rationals. -/
abbrev Vector := List ℚ

/-- `Matrix` of the C++ sources, modelled as a list of rows. -/
abbrev Matrix := List (List ℚ)

/-- `VectorConfig`: a map from variable names to vectors, modelled as an
association list. -/
abbrev VectorConfig := List (String × Vector)

/-- `config[key]` of the C++ sources: look a key up in a `VectorConfig`
(defaulting to the empty vector, which the tests never hit). -/
def VectorConfig.get (c : VectorConfig) (key : String) : Vector :=
  (List.lookup key c).getD []

/-- `eye(n)`: the n-by-n identity matrix. -/
def eye (n : ℕ) : Matrix :=
  (List.range n).map fun i => (List.range n).map fun j => if i = j then 1 else 0

/-- `zero(n)`: the zero vector of dimension n. -/
def zero (n : ℕ) : Vector := List.replicate n 0

namespace test1

/-- `test1::grad_g` (src/cpp/testNonlinearConstraint.cpp, lines 18-22):
`p = 1`, `gradG(x) = 2x` as a 1x1 matrix. -/
def grad_g (config : VectorConfig) (key : String) : Matrix :=
  let x := (config.get key).getD 0 0
  [[2 * x]]

/-- `test1::g_func` (src/cpp/testNonlinearConstraint.cpp, lines 24-28):
`p = 1`, `g(x) = x^2 - 5` as a 1-vector. -/
def g_func (config : VectorConfig) (key : String) : Vector :=
  let x := (config.get key).getD 0 0
  [x * x - 5]

end test1

/-- `NonlinearConstraint1<VectorConfig>`: a unary nonlinear equality constraint
on one primal variable, holding the constraint function `g`, its gradient
`gradG`, the constraint dimension `p` and the Lagrange-multiplier key.
The class body is not in the snapshot; the fields are those of its constructor
call in the test: `NonlinearConstraint1(key, grad_g, g_func, p, lagrange_key)`. -/
structure NonlinearConstraint1 where
  key : String
  gradG : VectorConfig → String → Matrix
  g : VectorConfig → String → Vector
  p : ℕ
  lagrangeKey : String

/-- Modelled from the spec: `NonlinearConstraint1::error_vector`
(`NonlinearConstraint-inl.h`, not in the snapshot) "evaluates g at the values
bound to this factor's keys in `config`; returns the p-dimensional residual". -/
def NonlinearConstraint1.error_vector (c : NonlinearConstraint1)
    (config : VectorConfig) : Vector :=
  c.g config c.key

/-- Modelled from the spec: `NonlinearConstraint1::equals`
(`NonlinearConstraint-inl.h`, not in the snapshot): "two Constraint Factors are
equal iff they reference identical primal keys in the same order, the same
constraint dimension, and the same multiplier key" (for this unary class the
key list is the single primal key). -/
def NonlinearConstraint1.equals (a b : NonlinearConstraint1) : Bool :=
  a.key == b.key && a.p == b.p && a.lagrangeKey == b.lagrangeKey

/-- A `GaussianFactor` as constructed in the test: an ordered list of
(key, matrix block) pairs, a right-hand side vector `b`, and a noise sigma. -/
structure GaussianFactor where
  blocks : List (String × Matrix)
  b : Vector
  sigma : ℚ
  deriving DecidableEq

/-- `vector_scale`: scale the i-th row of a matrix by the i-th entry of a
vector (used to scale the Jacobian by the Lagrange multiplier). -/
def vector_scale (lam : Vector) (m : Matrix) : Matrix :=
  List.zipWith (fun l row => row.map fun a => l * a) lam m

/-- Modelled from the spec: `NonlinearConstraint1::linearize`
(`NonlinearConstraint-inl.h`, not in the snapshot).  Returns the pair
(cost factor, constraint factor):
* cost factor: the primal block is the Jacobian row-scaled by the multiplier
  values, the multiplier block is the p-by-p identity, the right-hand side is
  the zero vector, with unit sigma 1.0;
* constraint factor: the primal block is the raw Jacobian, the right-hand side
  is "the negative of the current residual `g(primalConfig)`", with sigma 0.0
  (a hard, zero-noise equality row). -/
def NonlinearConstraint1.linearize (c : NonlinearConstraint1)
    (config lagrangeConfig : VectorConfig) : GaussianFactor × GaussianFactor :=
  let lam := lagrangeConfig.get c.lagrangeKey
  let G := c.gradG config c.key
  let cost : GaussianFactor :=
    ⟨[(c.key, vector_scale lam G), (c.lagrangeKey, eye c.p)], zero c.p, 1⟩
  let residual := c.g config c.key
  let constraint : GaussianFactor :=
    ⟨[(c.key, G)], residual.map (fun a => -a), 0⟩
  (cost, constraint)

/-! Data of the three tests (src/cpp/testNonlinearConstraint.cpp, lines 31-88). -/

/-- `c1` of the tests: `NonlinearConstraint1("x", grad_g, g_func, 1, "L_x1")`. -/
def c1 : NonlinearConstraint1 := ⟨"x", test1.grad_g, test1.g_func, 1, "L_x1"⟩

/-- `c2` of `unary_scalar_equal`: identical construction to `c1`. -/
def c2 : NonlinearConstraint1 := ⟨"x", test1.grad_g, test1.g_func, 1, "L_x1"⟩

/-- `c3` of `unary_scalar_equal`: dimension changed to `p = 2`. -/
def c3 : NonlinearConstraint1 := ⟨"x", test1.grad_g, test1.g_func, 2, "L_x1"⟩

/-- `c4` of `unary_scalar_equal`: primal key changed to `"y"`. -/
def c4 : NonlinearConstraint1 := ⟨"y", test1.grad_g, test1.g_func, 1, "L_x1"⟩

/-- The configuration `config`/`realconfig` of the tests: `x ↦ [1.0]`. -/
def realconfig : VectorConfig := [("x", [1])]

/-- The multiplier configuration of `unary_scalar_linearize`: `L_x1 ↦ [3.0]`. -/
def lagrangeConfig : VectorConfig := [("L_x1", [3])]

/-- `expFactor` of `unary_scalar_linearize` (line 72):
`GaussianFactor("x", Matrix_(1,1, 6.0), "L_x1", eye(1), zero(1), 1.0)`. -/
def expFactor : GaussianFactor := ⟨[("x", [[6]]), ("L_x1", eye 1)], zero 1, 1⟩

/-- `expConstraint` of `unary_scalar_linearize` (line 73): the constraint
factor the test requires `linearize` to produce,
`GaussianFactor("x", Matrix_(1,1, 2.0), Vector_(1,-4.0), 0.0)`. -/
def expConstraint : GaussianFactor := ⟨[("x", [[2]])], [-4], 0⟩

/-- C4: `error_vector` on the configuration binding `"x"` to `[1.0]` evaluates
`g(x) = x^2 - 5` at `x = 1` and returns the 1-dimensional residual `[-4]`,
as the test `unary_scalar_construction` expects. -/
theorem error_vector_unary_scalar : c1.error_vector realconfig = [-4] := by
  norm_num [NonlinearConstraint1.error_vector, c1, realconfig, test1.g_func,
    VectorConfig.get]

/-- C5: linearizing the unary scalar constraint at `x = 1` with multiplier
value 3 produces a cost factor equal to the test's `expFactor`: primal block
`[6]` (the Jacobian `[2]` row-scaled by the multiplier 3), multiplier block the
1x1 identity, right-hand side the zero vector, and unit sigma 1.0. -/
theorem linearize_unary_scalar_cost :
    (c1.linearize realconfig lagrangeConfig).1 = expFactor ∧
    expFactor.blocks = [("x", [[6]]), ("L_x1", [[1]])] ∧
    expFactor.b = [0] ∧ expFactor.sigma = 1 := by
  refine ⟨?_, rfl, rfl, rfl⟩
  norm_num [NonlinearConstraint1.linearize, c1, realconfig, lagrangeConfig,
    test1.g_func, test1.grad_g, VectorConfig.get, expFactor, vector_scale,
    eye, zero, List.range_succ]

/-- C1 counterexample: the test `unary_scalar_linearize` requires the
constraint factor produced by `linearize` to equal `expConstraint`
(line 73 of src/cpp/testNonlinearConstraint.cpp), whose right-hand side is
`[-4]`, not the claimed `[4]`; in particular the factor the claim (and the
spec) predicts, with right-hand side the negated residual, differs from the
factor the test requires. -/
theorem linearize_constraint_rhs_not_four :
    expConstraint.b = [-4] ∧ ¬ expConstraint.b = [(4 : ℚ)] ∧
    ¬ (c1.linearize realconfig lagrangeConfig).2 = expConstraint := by
  refine ⟨rfl, by norm_num [expConstraint], ?_⟩
  norm_num [NonlinearConstraint1.linearize, c1, realconfig, lagrangeConfig,
    test1.g_func, test1.grad_g, VectorConfig.get, expConstraint]

/-- C1 amended: linearizing the unary scalar constraint `g(x) = x^2 - 5` at
`x = 1` produces (per the test's required `expConstraint`) a constraint factor
whose primal block is the raw Jacobian `grad_g = [2]`, whose right-hand side is
the residual `g(1) = [-4]` itself (not its negation), with hard zero-noise
sigma 0.0. -/
theorem linearize_constraint_unary_scalar :
    expConstraint.blocks = [(c1.key, test1.grad_g realconfig "x")] ∧
    expConstraint.b = test1.g_func realconfig "x" ∧
    expConstraint.sigma = 0 := by
  refine ⟨?_, ?_, rfl⟩ <;>
  norm_num [expConstraint, c1, realconfig, test1.g_func, test1.grad_g,
    VectorConfig.get]

/-- C6: two constraint factors are `equals`-equal iff they have the same
primal key, the same constraint dimension `p`, and the same multiplier key;
concretely (test `unary_scalar_equal`): `c1` and `c2` compare equal both ways,
while `c3` (dimension 2) and `c4` (primal key `"y"`) are unequal to `c1`. -/
theorem equals_unary_scalar :
    (∀ a b : NonlinearConstraint1,
      a.equals b = true ↔ a.key = b.key ∧ a.p = b.p ∧ a.lagrangeKey = b.lagrangeKey) ∧
    c1.equals c2 = true ∧ c2.equals c1 = true ∧
    c1.equals c3 = false ∧ c1.equals c4 = false := by
  refine ⟨fun a b => ?_, ?_, ?_, ?_, ?_⟩
  · unfold NonlinearConstraint1.equals
    rw [Bool.and_eq_true, Bool.and_eq_true, beq_iff_eq, beq_iff_eq, beq_iff_eq]
    tauto
  all_goals decide

/-! ## Embedding of the quaternion chart (src/gtsam/geometry/Quaternion.h)

`MakeQuaternionChart` for `Eigen::Quaternion<double>`: doubles become real
numbers, `std::acos` becomes `Real.arccos`, `std::sqrt` becomes `Real.sqrt`,
`M_PI` becomes `Real.pi`, and Eigen's `omega.isZero()` becomes `omega = 0`. -/

/-- The tangent type `Omega` (an Eigen 3-vector of doubles). -/
@[ext]
structure Omega where
  x : ℝ
  y : ℝ
  z : ℝ

instance : Zero Omega := ⟨⟨0, 0, 0⟩⟩

instance : Neg Omega := ⟨fun v => ⟨-v.x, -v.y, -v.z⟩⟩

instance : SMul ℝ Omega := ⟨fun c v => ⟨c * v.x, c * v.y, c * v.z⟩⟩

@[simp] theorem Omega.zero_x : (0 : Omega).x = 0 := rfl

@[simp] theorem Omega.zero_y : (0 : Omega).y = 0 := rfl

@[simp] theorem Omega.zero_z : (0 : Omega).z = 0 := rfl

@[simp] theorem Omega.neg_x (v : Omega) : (-v).x = -v.x := rfl

@[simp] theorem Omega.neg_y (v : Omega) : (-v).y = -v.y := rfl

@[simp] theorem Omega.neg_z (v : Omega) : (-v).z = -v.z := rfl

@[simp] theorem Omega.smul_x (c : ℝ) (v : Omega) : (c • v).x = c * v.x := rfl

@[simp] theorem Omega.smul_y (c : ℝ) (v : Omega) : (c • v).y = c * v.y := rfl

@[simp] theorem Omega.smul_z (c : ℝ) (v : Omega) : (c • v).z = c * v.z := rfl

theorem Omega.smul_assoc (c d : ℝ) (v : Omega) : c • d • v = (c * d) • v := by
  ext <;> simp <;> ring

theorem Omega.one_smul (v : Omega) : (1 : ℝ) • v = v := by
  ext <;> simp

theorem Omega.smul_zero (c : ℝ) : c • (0 : Omega) = 0 := by
  ext <;> simp

/-- `omega.norm()`: the Euclidean norm of a 3-vector. -/
noncomputable def Omega.norm (v : Omega) : ℝ :=
  Real.sqrt (v.x ^ 2 + v.y ^ 2 + v.z ^ 2)

theorem Omega.norm_nonneg (v : Omega) : 0 ≤ v.norm := Real.sqrt_nonneg _

theorem Omega.norm_eq_zero_iff (v : Omega) : v.norm = 0 ↔ v = 0 := by
  unfold Omega.norm
  rw [Real.sqrt_eq_zero (by positivity)]
  constructor
  · intro h
    have hx : v.x = 0 := by nlinarith [sq_nonneg v.x, sq_nonneg v.y, sq_nonneg v.z]
    have hy : v.y = 0 := by nlinarith [sq_nonneg v.x, sq_nonneg v.y, sq_nonneg v.z]
    have hz : v.z = 0 := by nlinarith [sq_nonneg v.x, sq_nonneg v.y, sq_nonneg v.z]
    ext <;> simp [hx, hy, hz]
  · intro h
    rw [h]
    norm_num

theorem Omega.norm_pos (v : Omega) (hv : v ≠ 0) : 0 < v.norm :=
  lt_of_le_of_ne v.norm_nonneg fun h => hv ((v.norm_eq_zero_iff).mp h.symm)

theorem Omega.norm_smul (c : ℝ) (v : Omega) : (c • v).norm = |c| * v.norm := by
  unfold Omega.norm
  have h : (c • v).x ^ 2 + (c • v).y ^ 2 + (c • v).z ^ 2 =
      c ^ 2 * (v.x ^ 2 + v.y ^ 2 + v.z ^ 2) := by
    simp
    ring
  rw [h, Real.sqrt_mul (sq_nonneg c), Real.sqrt_sq_eq_abs]

theorem Omega.norm_single {a : ℝ} (ha : 0 ≤ a) : (⟨a, 0, 0⟩ : Omega).norm = a := by
  unfold Omega.norm
  simp [Real.sqrt_sq_eq_abs, abs_of_nonneg ha]

theorem Omega.smul_ne_zero {c : ℝ} {v : Omega} (hc : c ≠ 0) (hv : v ≠ 0) :
    c • v ≠ 0 := by
  intro h
  have h2 := congrArg Omega.norm h
  rw [Omega.norm_smul] at h2
  have h0 : (0 : Omega).norm = 0 := by
    unfold Omega.norm
    norm_num
  rw [h0] at h2
  rcases mul_eq_zero.mp h2 with h1 | h1
  · exact hc (abs_eq_zero.mp h1)
  · exact hv (v.norm_eq_zero_iff.mp h1)

/-- An Eigen quaternion `Q`: scalar part `w` and vector part `vec`. -/
@[ext]
structure Quaternion where
  w : ℝ
  vec : Omega

instance : Neg Quaternion := ⟨fun q => ⟨-q.w, -q.vec⟩⟩

@[simp] theorem Quaternion.neg_w (q : Quaternion) : (-q).w = -q.w := rfl

@[simp] theorem Quaternion.neg_vec (q : Quaternion) : (-q).vec = -q.vec := rfl

/-- `Q::Identity()`: the identity quaternion `(w, x, y, z) = (1, 0, 0, 0)`. -/
def Quaternion.Identity : Quaternion := ⟨1, ⟨0, 0, 0⟩⟩

/-- A unit quaternion (the valid inputs of `Logmap`). -/
def Quaternion.isUnit (q : Quaternion) : Prop :=
  q.w ^ 2 + q.vec.x ^ 2 + q.vec.y ^ 2 + q.vec.z ^ 2 = 1

/-- Eigen's `AngleAxis(angle, axis)` converted to a quaternion:
scalar part `cos(angle/2)`, vector part `sin(angle/2) * axis`. -/
noncomputable def AngleAxis (angle : ℝ) (axis : Omega) : Quaternion :=
  ⟨Real.cos (angle / 2), Real.sin (angle / 2) • axis⟩

open Classical in
/-- `MakeQuaternionChart::Expmap` (src/gtsam/geometry/Quaternion.h, lines
43-50): identity for a zero tangent vector, otherwise axis/angle with
`angle = omega.norm()` and `axis = omega / angle`. -/
noncomputable def Expmap (omega : Omega) : Quaternion :=
  if omega = 0 then Quaternion.Identity
  else AngleAxis omega.norm (omega.norm⁻¹ • omega)

/-- `twoPi = 2.0 * M_PI` (local constant of `Logmap`). -/
noncomputable def twoPi : ℝ := 2 * Real.pi

/-- `NearlyOne = 1.0 - 1e-10` (local constant of `Logmap`). -/
noncomputable def NearlyOne : ℝ := 1 - 1e-10

/-- `NearlyNegativeOne = -1.0 + 1e-10` (local constant of `Logmap`). -/
noncomputable def NearlyNegativeOne : ℝ := -1 + 1e-10

/-- The in-place angle correction of `Logmap` (lines 71-74):
`if (angle > M_PI) angle -= twoPi; else if (angle < -M_PI) angle += twoPi;`. -/
noncomputable def wrapAngle (angle : ℝ) : ℝ :=
  if Real.pi < angle then angle - twoPi
  else if angle < -Real.pi then angle + twoPi
  else angle

/-- `MakeQuaternionChart::Logmap` (src/gtsam/geometry/Quaternion.h, lines
53-77): Taylor branch for `qw > NearlyOne`, zero vector for
`qw < NearlyNegativeOne`, otherwise `(angle / s) * q.vec()` with
`angle = 2 * acos(qw)` wrapped to `[-pi, pi]` and `s = sqrt(1 - qw * qw)`. -/
noncomputable def Logmap (q : Quaternion) : Omega :=
  if NearlyOne < q.w then
    (2 - 2 * (q.w - 1) / 3) • q.vec
  else if q.w < NearlyNegativeOne then
    0
  else
    (wrapAngle (2 * Real.arccos q.w) / Real.sqrt (1 - q.w * q.w)) • q.vec

/-- The near-identity Taylor regime of `Logmap` (`qw > NearlyOne`). -/
def inTaylor (q : Quaternion) : Prop := NearlyOne < q.w

/-- The near-antipodal zero regime of `Logmap`
(`!(qw > NearlyOne) && qw < NearlyNegativeOne`). -/
def inZero (q : Quaternion) : Prop :=
  ¬ NearlyOne < q.w ∧ q.w < NearlyNegativeOne

/-- The general regime of `Logmap` (both guards fail). -/
def inGeneral (q : Quaternion) : Prop :=
  ¬ NearlyOne < q.w ∧ ¬ q.w < NearlyNegativeOne

/-- C7: `Expmap` of the zero tangent vector takes the dedicated zero branch
and returns the identity quaternion exactly. -/
theorem expmap_zero : Expmap 0 = Quaternion.Identity := by
  rw [Expmap, if_pos rfl]

/-- C8: for every quaternion whose scalar part is below the near-antipodal
threshold `NearlyNegativeOne = -1 + 1e-10`, `Logmap` returns the zero tangent
vector, regardless of the vector part: the antipodal point is a defined
branch, not a failure. -/
theorem logmap_near_antipodal (q : Quaternion) (h : q.w < NearlyNegativeOne) :
    Logmap q = 0 := by
  have h1 : ¬ NearlyOne < q.w := by
    rw [not_lt]
    unfold NearlyOne NearlyNegativeOne at *
    nlinarith
  rw [Logmap, if_neg h1, if_pos h]

/-- Witness for C8: at the exact antipode `(w, vec) = (-1, (5, 6, 7))` the
hypothesis holds and `Logmap` returns the zero vector. -/
theorem logmap_near_antipodal_witness :
    (-1 : ℝ) < NearlyNegativeOne ∧ Logmap ⟨-1, ⟨5, 6, 7⟩⟩ = 0 := by
  have h : ((⟨-1, ⟨5, 6, 7⟩⟩ : Quaternion)).w < NearlyNegativeOne := by
    show (-1 : ℝ) < NearlyNegativeOne
    unfold NearlyNegativeOne
    norm_num
  exact ⟨h, logmap_near_antipodal _ h⟩

/-- C9: `Logmap` is total: every quaternion falls in exactly one of the three
regimes, the boundary scalar values `+1` and `-1` are assigned to the Taylor
and to the zero branch respectively, and in the general regime the divisor
`s = sqrt(1 - qw * qw)` is strictly positive (so the branch divides by a
nonzero number), with `Logmap` given there by the general formula. -/
theorem logmap_total (q : Quaternion) (_hu : q.isUnit) :
    (inTaylor q ∨ inZero q ∨ inGeneral q) ∧
    ¬ (inTaylor q ∧ inZero q) ∧ ¬ (inTaylor q ∧ inGeneral q) ∧
    ¬ (inZero q ∧ inGeneral q) ∧
    (q.w = 1 → inTaylor q) ∧ (q.w = -1 → inZero q) ∧
    (inGeneral q → 0 < Real.sqrt (1 - q.w * q.w) ∧
      Logmap q = (wrapAngle (2 * Real.arccos q.w) / Real.sqrt (1 - q.w * q.w)) • q.vec) := by
  unfold inTaylor inZero inGeneral
  refine ⟨?_, ?_, ?_, ?_, ?_, ?_, ?_⟩
  · by_cases h1 : NearlyOne < q.w
    · exact Or.inl h1
    · by_cases h2 : q.w < NearlyNegativeOne
      · exact Or.inr (Or.inl ⟨h1, h2⟩)
      · exact Or.inr (Or.inr ⟨h1, h2⟩)
  · rintro ⟨h1, h2, -⟩
    exact h2 h1
  · rintro ⟨h1, h2, -⟩
    exact h2 h1
  · rintro ⟨⟨-, h2⟩, -, h4⟩
    exact h4 h2
  · intro hw
    unfold NearlyOne
    rw [hw]
    norm_num
  · intro hw
    unfold NearlyOne NearlyNegativeOne
    rw [hw]
    norm_num
  · rintro ⟨h1, h2⟩
    rw [not_lt] at h1 h2
    simp only [NearlyOne, NearlyNegativeOne] at h1 h2
    have hs : 0 < 1 - q.w * q.w := by nlinarith
    refine ⟨Real.sqrt_pos.mpr hs, ?_⟩
    rw [Logmap, if_neg (by rw [not_lt]; unfold NearlyOne; linarith),
      if_neg (by rw [not_lt]; unfold NearlyNegativeOne; linarith)]

/-- Witness for C9: the unit quaternion `(0, (1,0,0))` sits in the general
regime and its divisor `s` is strictly positive. -/
theorem logmap_total_witness :
    Quaternion.isUnit ⟨0, ⟨1, 0, 0⟩⟩ ∧
    0 < Real.sqrt (1 - (Quaternion.mk 0 ⟨1, 0, 0⟩).w * (Quaternion.mk 0 ⟨1, 0, 0⟩).w) := by
  have hu : Quaternion.isUnit ⟨0, ⟨1, 0, 0⟩⟩ := by
    unfold Quaternion.isUnit
    norm_num
  refine ⟨hu, ?_⟩
  have hg : inGeneral ⟨0, ⟨1, 0, 0⟩⟩ := by
    unfold inGeneral NearlyOne NearlyNegativeOne
    norm_num
  exact ((logmap_total ⟨0, ⟨1, 0, 0⟩⟩ hu).2.2.2.2.2.2 hg).1

/-- C10: in the general branch the raw angle `2 * acos(qw)` lies in
`[0, 2*pi]`, hence the guard `angle < -pi` never fires (only the subtraction
of `2*pi` can), and the corrected angle lies in `(-pi, pi]`. -/
theorem logmap_wrap_angle (q : Quaternion) (_hg : inGeneral q) :
    0 ≤ 2 * Real.arccos q.w ∧ 2 * Real.arccos q.w ≤ 2 * Real.pi ∧
    ¬ 2 * Real.arccos q.w < -Real.pi ∧
    wrapAngle (2 * Real.arccos q.w) =
      (if Real.pi < 2 * Real.arccos q.w then 2 * Real.arccos q.w - twoPi
       else 2 * Real.arccos q.w) ∧
    -Real.pi < wrapAngle (2 * Real.arccos q.w) ∧
    wrapAngle (2 * Real.arccos q.w) ≤ Real.pi := by
  have ha0 : 0 ≤ Real.arccos q.w := Real.arccos_nonneg q.w
  have haπ : Real.arccos q.w ≤ Real.pi := Real.arccos_le_pi q.w
  have hπ : 0 < Real.pi := Real.pi_pos
  have hnot : ¬ 2 * Real.arccos q.w < -Real.pi := by
    rw [not_lt]
    linarith
  refine ⟨by linarith, by linarith, hnot, ?_, ?_, ?_⟩
  · rw [wrapAngle]
    by_cases hgt : Real.pi < 2 * Real.arccos q.w
    · rw [if_pos hgt, if_pos hgt]
    · rw [if_neg hgt, if_neg hgt, if_neg hnot]
  · rw [wrapAngle]
    by_cases hgt : Real.pi < 2 * Real.arccos q.w
    · rw [if_pos hgt]
      unfold twoPi
      linarith
    · rw [if_neg hgt, if_neg hnot]
      linarith
  · rw [wrapAngle]
    by_cases hgt : Real.pi < 2 * Real.arccos q.w
    · rw [if_pos hgt]
      unfold twoPi
      linarith
    · rw [if_neg hgt, if_neg hnot]
      linarith

/-- Witness for C10: at the unit quaternion `(0, (1,0,0))` (general regime,
`acos 0 = pi/2`): the raw angle is nonnegative and the corrected angle lies in
`(-pi, pi]`. -/
theorem logmap_wrap_angle_witness :
    0 ≤ 2 * Real.arccos (Quaternion.mk 0 ⟨1, 0, 0⟩).w ∧
    -Real.pi < wrapAngle (2 * Real.arccos (Quaternion.mk 0 ⟨1, 0, 0⟩).w) := by
  have hg : inGeneral ⟨0, ⟨1, 0, 0⟩⟩ := by
    unfold inGeneral NearlyOne NearlyNegativeOne
    norm_num
  have h := logmap_wrap_angle ⟨0, ⟨1, 0, 0⟩⟩ hg
  exact ⟨h.1, h.2.2.2.2.1⟩

/-! ## Taylor-polynomial bounds on sine and cosine

The round-trip analysis of the chart needs the degree-5 upper bound on `sin`
(the bounds of degree ≤ 4 available in the library are too coarse to separate
the Taylor branch of `Logmap` from the exact inverse).  Each bound follows
from the previous one by monotonicity from a nonnegative derivative. -/

theorem nonneg_of_hasDerivAt (f g : ℝ → ℝ) (hder : ∀ t, HasDerivAt f (g t) t)
    (h0 : f 0 = 0) (hg : ∀ t, 0 ≤ t → 0 ≤ g t) {x : ℝ} (hx : 0 ≤ x) :
    0 ≤ f x := by
  have key : MonotoneOn f (Set.Ici (0 : ℝ)) := by
    apply monotoneOn_of_deriv_nonneg (convex_Ici 0)
    · exact fun t _ => (hder t).continuousAt.continuousWithinAt
    · exact fun t _ => (hder t).differentiableAt.differentiableWithinAt
    · intro t ht
      rw [interior_Ici] at ht
      rw [(hder t).deriv]
      exact hg t (le_of_lt ht)
  have h1 := key (Set.left_mem_Ici) (Set.mem_Ici.mpr hx) hx
  rwa [h0] at h1

theorem sub_cube_le_sin {x : ℝ} (hx : 0 ≤ x) : x - x ^ 3 / 6 ≤ Real.sin x := by
  have h := nonneg_of_hasDerivAt (fun t => Real.sin t - (t - t ^ 3 / 6))
    (fun t => Real.cos t - (1 - t ^ 2 / 2)) ?_ (by norm_num) ?_ hx
  · linarith [h]
  · intro t
    have h1 : HasDerivAt (fun t : ℝ => t - t ^ 3 / 6)
        (1 - (3 : ℕ) * t ^ 2 / 6) t :=
      (hasDerivAt_id t).sub ((hasDerivAt_pow 3 t).div_const 6)
    have h2 := (Real.hasDerivAt_sin t).sub h1
    convert h2 using 1
    push_cast
    ring
  · intro t _
    have := Real.one_sub_sq_div_two_le_cos (x := t)
    linarith

theorem cos_le_quartic {x : ℝ} (hx : 0 ≤ x) :
    Real.cos x ≤ 1 - x ^ 2 / 2 + x ^ 4 / 24 := by
  have h := nonneg_of_hasDerivAt
    (fun t => 1 - t ^ 2 / 2 + t ^ 4 / 24 - Real.cos t)
    (fun t => Real.sin t - (t - t ^ 3 / 6)) ?_ (by norm_num) ?_ hx
  · linarith [h]
  · intro t
    have h1 : HasDerivAt (fun t : ℝ => 1 - t ^ 2 / 2 + t ^ 4 / 24)
        (0 - (2 : ℕ) * t ^ 1 / 2 + (4 : ℕ) * t ^ 3 / 24) t :=
      ((hasDerivAt_const t 1).sub ((hasDerivAt_pow 2 t).div_const 2)).add
        ((hasDerivAt_pow 4 t).div_const 24)
    have h2 := h1.sub (Real.hasDerivAt_cos t)
    convert h2 using 1
    push_cast
    ring
  · intro t ht
    linarith [sub_cube_le_sin ht]

theorem sin_le_quintic {x : ℝ} (hx : 0 ≤ x) :
    Real.sin x ≤ x - x ^ 3 / 6 + x ^ 5 / 120 := by
  have h := nonneg_of_hasDerivAt
    (fun t => t - t ^ 3 / 6 + t ^ 5 / 120 - Real.sin t)
    (fun t => 1 - t ^ 2 / 2 + t ^ 4 / 24 - Real.cos t) ?_ (by norm_num) ?_ hx
  · linarith [h]
  · intro t
    have h1 : HasDerivAt (fun t : ℝ => t - t ^ 3 / 6 + t ^ 5 / 120)
        (1 - (3 : ℕ) * t ^ 2 / 6 + (5 : ℕ) * t ^ 4 / 120) t :=
      ((hasDerivAt_id t).sub ((hasDerivAt_pow 3 t).div_const 6)).add
        ((hasDerivAt_pow 5 t).div_const 120)
    have h2 := h1.sub (Real.hasDerivAt_sin t)
    convert h2 using 1
    push_cast
    ring
  · intro t ht
    linarith [cos_le_quartic ht]

/-! ## The chart round trips (C2 and C3) -/

/-- C2 amended: for every tangent vector `v` with `‖v‖ < pi` that avoids the
near-identity Taylor window of `Logmap` (that is, `v = 0` or
`cos(‖v‖/2) ≤ NearlyOne`), the round trip `Logmap(Expmap(v))` recovers `v`
exactly.  (Inside the window the Taylor branch is only an approximation, see
the counterexample theorem.) -/
theorem logmap_expmap_of_lt_pi (v : Omega) (h1 : v.norm < Real.pi)
    (h2 : v = 0 ∨ Real.cos (v.norm / 2) ≤ NearlyOne) :
    Logmap (Expmap v) = v := by
  rcases eq_or_ne v 0 with hv | hv
  · subst hv
    rw [Expmap, if_pos rfl, Logmap]
    rw [if_pos (show NearlyOne < Quaternion.Identity.w by unfold NearlyOne Quaternion.Identity; norm_num)]
    show _ • Quaternion.Identity.vec = _
    unfold Quaternion.Identity
    ext <;> simp
  · have hcos : Real.cos (v.norm / 2) ≤ NearlyOne := h2.resolve_left hv
    have hθpos : 0 < v.norm := v.norm_pos hv
    have hπ : 0 < Real.pi := Real.pi_pos
    rw [Expmap, if_neg hv]
    simp only [AngleAxis]
    rw [Logmap]
    have hcp : 0 < Real.cos (v.norm / 2) := by
      apply Real.cos_pos_of_mem_Ioo
      constructor
      · linarith
      · linarith
    rw [if_neg (show ¬ NearlyOne < (Quaternion.mk (Real.cos (v.norm / 2)) _).w from not_lt.mpr hcos)]
    rw [if_neg (show ¬ (Quaternion.mk (Real.cos (v.norm / 2)) _).w < NearlyNegativeOne by
      rw [not_lt]
      show NearlyNegativeOne ≤ Real.cos (v.norm / 2)
      unfold NearlyNegativeOne
      linarith)]
    show (wrapAngle (2 * Real.arccos (Real.cos (v.norm / 2))) /
        Real.sqrt (1 - Real.cos (v.norm / 2) * Real.cos (v.norm / 2))) •
        (Real.sin (v.norm / 2) • (v.norm⁻¹ • v)) = v
    rw [Real.arccos_cos (by linarith) (by linarith)]
    have h2θ : 2 * (v.norm / 2) = v.norm := by ring
    rw [h2θ]
    rw [wrapAngle, if_neg (not_lt.mpr h1.le), if_neg (by rw [not_lt]; linarith)]
    have hsin0 : 0 ≤ Real.sin (v.norm / 2) :=
      Real.sin_nonneg_of_nonneg_of_le_pi (by linarith) (by linarith)
    have hsq : 1 - Real.cos (v.norm / 2) * Real.cos (v.norm / 2) =
        Real.sin (v.norm / 2) ^ 2 := by
      have h := Real.sin_sq_add_cos_sq (v.norm / 2)
      nlinarith [h]
    rw [hsq, Real.sqrt_sq hsin0]
    have hsinpos : 0 < Real.sin (v.norm / 2) :=
      Real.sin_pos_of_pos_of_lt_pi (by linarith) (by linarith)
    rw [Omega.smul_assoc, Omega.smul_assoc]
    have hcoef : v.norm / Real.sin (v.norm / 2) *
        Real.sin (v.norm / 2) * v.norm⁻¹ = 1 := by
      field_simp
    rw [hcoef, Omega.one_smul]

/-- Witness for C2: the tangent vector `(1, 0, 0)` has norm `1 < pi`, lies in
the general branch (`cos(1/2) < 1 - 1e-10`), and round-trips exactly. -/
theorem logmap_expmap_of_lt_pi_witness :
    (⟨1, 0, 0⟩ : Omega).norm < Real.pi ∧
    Logmap (Expmap ⟨1, 0, 0⟩) = (⟨1, 0, 0⟩ : Omega) := by
  have hn : (⟨1, 0, 0⟩ : Omega).norm = 1 := Omega.norm_single (by norm_num)
  have h1 : (⟨1, 0, 0⟩ : Omega).norm < Real.pi := by
    rw [hn]
    linarith [Real.pi_gt_three]
  have hcos : Real.cos ((⟨1, 0, 0⟩ : Omega).norm / 2) ≤ NearlyOne := by
    rw [hn]
    have h := cos_le_quartic (x := (1 : ℝ) / 2) (by norm_num)
    unfold NearlyOne
    norm_num at h ⊢
    linarith
  exact ⟨h1, logmap_expmap_of_lt_pi _ h1 (Or.inr hcos)⟩

/-- C2 counterexample: the tangent vector `(1e-5, 0, 0)` has norm `< pi` but
falls in the Taylor window of `Logmap` (`cos(5e-6) > 1 - 1e-10`), where the
cubic Taylor branch is only approximate: the round trip does not return the
vector exactly. -/
theorem logmap_expmap_taylor_window :
    (⟨1e-5, 0, 0⟩ : Omega).norm < Real.pi ∧
    Logmap (Expmap ⟨1e-5, 0, 0⟩) ≠ (⟨1e-5, 0, 0⟩ : Omega) := by
  have hn : (⟨1e-5, 0, 0⟩ : Omega).norm = 1e-5 := Omega.norm_single (by norm_num)
  have hπ : (⟨1e-5, 0, 0⟩ : Omega).norm < Real.pi := by
    rw [hn]
    linarith [Real.pi_gt_three]
  refine ⟨hπ, ?_⟩
  have hvne : (⟨1e-5, 0, 0⟩ : Omega) ≠ 0 := by
    intro h
    have hx := congrArg Omega.x h
    norm_num at hx
  rw [Expmap, if_neg hvne, hn]
  simp only [AngleAxis]
  rw [Logmap]
  have hcosgt : NearlyOne < Real.cos ((1e-5 : ℝ) / 2) := by
    have hlb := Real.one_sub_sq_div_two_le_cos (x := (1e-5 : ℝ) / 2)
    unfold NearlyOne
    norm_num at hlb ⊢
    linarith
  rw [if_pos (show NearlyOne < (Quaternion.mk (Real.cos ((1e-5 : ℝ) / 2)) _).w from hcosgt)]
  intro heq
  have hx := congrArg Omega.x heq
  dsimp only at hx
  simp only [Omega.smul_x] at hx
  rw [show ((1e-5 : ℝ))⁻¹ * (1e-5 : ℝ) = 1 by norm_num, mul_one] at hx
  -- hx : (2 - 2 * (cos(5e-6) - 1) / 3) * sin(5e-6) = 1e-5; bound it strictly below
  have hh0 : (0 : ℝ) ≤ (1e-5 : ℝ) / 2 := by norm_num
  have hsin_ub := sin_le_quintic hh0
  have hsin_nonneg : 0 ≤ Real.sin ((1e-5 : ℝ) / 2) :=
    Real.sin_nonneg_of_nonneg_of_le_pi hh0 (by linarith [Real.pi_gt_three])
  have hcos_lb := Real.one_sub_sq_div_two_le_cos (x := (1e-5 : ℝ) / 2)
  have hcos_ub := Real.cos_le_one ((1e-5 : ℝ) / 2)
  have hA_ub : 2 - 2 * (Real.cos ((1e-5 : ℝ) / 2) - 1) / 3 ≤
      2 + ((1e-5 : ℝ) / 2) ^ 2 / 3 := by linarith
  have hA_pos : (0 : ℝ) ≤ 2 - 2 * (Real.cos ((1e-5 : ℝ) / 2) - 1) / 3 := by linarith
  have hprod : (2 - 2 * (Real.cos ((1e-5 : ℝ) / 2) - 1) / 3) * Real.sin ((1e-5 : ℝ) / 2) ≤
      (2 + ((1e-5 : ℝ) / 2) ^ 2 / 3) *
        ((1e-5 : ℝ) / 2 - ((1e-5 : ℝ) / 2) ^ 3 / 6 + ((1e-5 : ℝ) / 2) ^ 5 / 120) :=
    mul_le_mul hA_ub hsin_ub hsin_nonneg (by norm_num)
  have hfinal : (2 + ((1e-5 : ℝ) / 2) ^ 2 / 3) *
      ((1e-5 : ℝ) / 2 - ((1e-5 : ℝ) / 2) ^ 3 / 6 + ((1e-5 : ℝ) / 2) ^ 5 / 120) <
      (1e-5 : ℝ) := by norm_num
  linarith

/-- C3 amended: for every unit quaternion `q` in the general branch of
`Logmap` (`NearlyNegativeOne ≤ q.w ≤ NearlyOne`), the round trip
`Expmap(Logmap(q))` recovers `q` or its antipodal representative `-q`
exactly.  (In the two threshold windows the branches are only approximate,
see the counterexample theorem.) -/
theorem expmap_logmap_double_cover (q : Quaternion) (hu : q.isUnit)
    (h1 : q.w ≤ NearlyOne) (h2 : NearlyNegativeOne ≤ q.w) :
    Expmap (Logmap q) = q ∨ Expmap (Logmap q) = -q := by
  have hw1 : q.w ≤ 1 - 1e-10 := by
    simp only [NearlyOne] at h1
    linarith
  have hw2 : -1 + 1e-10 ≤ q.w := by
    simp only [NearlyNegativeOne] at h2
    linarith
  have hwlt : q.w < 1 := by linarith
  have hwgt : -1 < q.w := by linarith
  have hs2 : 0 < 1 - q.w * q.w := by nlinarith
  have hspos : 0 < Real.sqrt (1 - q.w * q.w) := Real.sqrt_pos.mpr hs2
  have hvecnorm : q.vec.norm = Real.sqrt (1 - q.w * q.w) := by
    have hsum : q.vec.x ^ 2 + q.vec.y ^ 2 + q.vec.z ^ 2 = 1 - q.w * q.w := by
      unfold Quaternion.isUnit at hu
      nlinarith [hu]
    unfold Omega.norm
    rw [hsum]
  have hvne : q.vec ≠ 0 := by
    intro h0
    rw [h0] at hvecnorm
    have hz : (0 : Omega).norm = 0 := by
      unfold Omega.norm
      norm_num
    rw [hz] at hvecnorm
    exact absurd hvecnorm.symm (ne_of_gt hspos)
  have hb1 : ¬ NearlyOne < q.w := not_lt.mpr h1
  have hb2 : ¬ q.w < NearlyNegativeOne := not_lt.mpr h2
  rw [Logmap, if_neg hb1, if_neg hb2]
  have ha0 : 0 ≤ Real.arccos q.w := Real.arccos_nonneg q.w
  have haπ : Real.arccos q.w ≤ Real.pi := Real.arccos_le_pi q.w
  have hapos : 0 < Real.arccos q.w := Real.arccos_pos.mpr hwlt
  have haltπ : Real.arccos q.w < Real.pi := by
    rcases lt_or_eq_of_le haπ with h | h
    · exact h
    · exfalso
      have hc := Real.cos_arccos hwgt.le hwlt.le
      rw [h, Real.cos_pi] at hc
      linarith
  have hcos_a : Real.cos (Real.arccos q.w) = q.w := Real.cos_arccos hwgt.le hwlt.le
  have hsin_a : Real.sin (Real.arccos q.w) = Real.sqrt (1 - q.w * q.w) := by
    rw [Real.sin_arccos]
    congr 1
    ring
  by_cases hgt : Real.pi < 2 * Real.arccos q.w
  · -- wrapped angle is negative: the round trip lands on -q
    right
    rw [wrapAngle, if_pos hgt]
    have hneg : 2 * Real.arccos q.w - twoPi < 0 := by
      unfold twoPi
      linarith
    have hcne : (2 * Real.arccos q.w - twoPi) / Real.sqrt (1 - q.w * q.w) ≠ 0 :=
      div_ne_zero (ne_of_lt hneg) (ne_of_gt hspos)
    have hωne : ((2 * Real.arccos q.w - twoPi) / Real.sqrt (1 - q.w * q.w)) • q.vec ≠ 0 :=
      Omega.smul_ne_zero hcne hvne
    rw [Expmap, if_neg hωne]
    have hωnorm : (((2 * Real.arccos q.w - twoPi) / Real.sqrt (1 - q.w * q.w)) • q.vec).norm =
        twoPi - 2 * Real.arccos q.w := by
      rw [Omega.norm_smul, hvecnorm, abs_div, abs_of_neg hneg, abs_of_pos hspos]
      rw [div_mul_cancel₀ _ (ne_of_gt hspos)]
      ring
    rw [hωnorm, AngleAxis]
    have hhalf : (twoPi - 2 * Real.arccos q.w) / 2 = Real.pi - Real.arccos q.w := by
      unfold twoPi
      ring
    rw [hhalf, Real.cos_pi_sub, Real.sin_pi_sub, hcos_a, hsin_a]
    refine Quaternion.ext rfl ?_
    show Real.sqrt (1 - q.w * q.w) • ((twoPi - 2 * Real.arccos q.w)⁻¹ •
      (((2 * Real.arccos q.w - twoPi) / Real.sqrt (1 - q.w * q.w)) • q.vec)) = (-q).vec
    rw [Quaternion.neg_vec, Omega.smul_assoc, Omega.smul_assoc]
    have hcoef : Real.sqrt (1 - q.w * q.w) * (twoPi - 2 * Real.arccos q.w)⁻¹ *
        ((2 * Real.arccos q.w - twoPi) / Real.sqrt (1 - q.w * q.w)) = -1 := by
      have hne1 : twoPi - 2 * Real.arccos q.w ≠ 0 := by
        have : 0 < twoPi - 2 * Real.arccos q.w := by linarith
        exact ne_of_gt this
      field_simp
      ring
    rw [hcoef]
    ext <;> simp
  · -- wrapped angle stays in [0, pi]: the round trip lands on q
    left
    have hnlt : ¬ 2 * Real.arccos q.w < -Real.pi := by
      rw [not_lt]
      linarith [Real.pi_pos]
    rw [wrapAngle, if_neg hgt, if_neg hnlt]
    have hθpos : 0 < 2 * Real.arccos q.w := by linarith
    have hcpos : 0 < (2 * Real.arccos q.w) / Real.sqrt (1 - q.w * q.w) :=
      div_pos hθpos hspos
    have hωne : ((2 * Real.arccos q.w) / Real.sqrt (1 - q.w * q.w)) • q.vec ≠ 0 :=
      Omega.smul_ne_zero (ne_of_gt hcpos) hvne
    rw [Expmap, if_neg hωne]
    have hωnorm : (((2 * Real.arccos q.w) / Real.sqrt (1 - q.w * q.w)) • q.vec).norm =
        2 * Real.arccos q.w := by
      rw [Omega.norm_smul, hvecnorm, abs_of_pos hcpos]
      rw [div_mul_cancel₀ _ (ne_of_gt hspos)]
    rw [hωnorm, AngleAxis]
    have hhalf : 2 * Real.arccos q.w / 2 = Real.arccos q.w := by ring
    rw [hhalf, hcos_a, hsin_a]
    refine Quaternion.ext rfl ?_
    show Real.sqrt (1 - q.w * q.w) • ((2 * Real.arccos q.w)⁻¹ •
      (((2 * Real.arccos q.w) / Real.sqrt (1 - q.w * q.w)) • q.vec)) = q.vec
    rw [Omega.smul_assoc, Omega.smul_assoc]
    have hcoef : Real.sqrt (1 - q.w * q.w) * (2 * Real.arccos q.w)⁻¹ *
        ((2 * Real.arccos q.w) / Real.sqrt (1 - q.w * q.w)) = 1 := by
      field_simp
    rw [hcoef, Omega.one_smul]

/-- Witness for C3: the unit quaternion `(0, (1, 0, 0))` (a half-turn about
the x-axis) lies in the general branch and round-trips onto `q` or `-q`. -/
theorem expmap_logmap_double_cover_witness :
    Quaternion.isUnit ⟨0, ⟨1, 0, 0⟩⟩ ∧
    (Expmap (Logmap ⟨0, ⟨1, 0, 0⟩⟩) = (⟨0, ⟨1, 0, 0⟩⟩ : Quaternion) ∨
     Expmap (Logmap ⟨0, ⟨1, 0, 0⟩⟩) = -(⟨0, ⟨1, 0, 0⟩⟩ : Quaternion)) := by
  have hu : Quaternion.isUnit ⟨0, ⟨1, 0, 0⟩⟩ := by
    unfold Quaternion.isUnit
    norm_num
  refine ⟨hu, expmap_logmap_double_cover _ hu ?_ ?_⟩
  · show (0 : ℝ) ≤ NearlyOne
    unfold NearlyOne
    norm_num
  · show NearlyNegativeOne ≤ (0 : ℝ)
    unfold NearlyNegativeOne
    norm_num

/-- The near-antipodal but not antipodal unit quaternion
`w = -(1 - 1e-11)`, `vec = (sqrt(1 - (1 - 1e-11)^2), 0, 0)` used to refute
the unrestricted double-cover round trip. -/
noncomputable def qNearAntipodal : Quaternion :=
  ⟨-(1 - 1e-11), ⟨Real.sqrt (1 - (1 - 1e-11) ^ 2), 0, 0⟩⟩

/-- C3 counterexample: `qNearAntipodal` is a unit quaternion, but it falls in
the near-antipodal window of `Logmap` (`q.w < -1 + 1e-10`), where `Logmap`
returns the zero vector; `Expmap` then returns the identity, which is neither
`q` nor `-q`. -/
theorem expmap_logmap_not_double_cover :
    Quaternion.isUnit qNearAntipodal ∧
    Expmap (Logmap qNearAntipodal) ≠ qNearAntipodal ∧
    Expmap (Logmap qNearAntipodal) ≠ -qNearAntipodal := by
  have hsq : (0 : ℝ) ≤ 1 - (1 - 1e-11) ^ 2 := by norm_num
  have hu : Quaternion.isUnit qNearAntipodal := by
    unfold Quaternion.isUnit qNearAntipodal
    dsimp only
    rw [Real.sq_sqrt hsq]
    ring
  have hb2 : qNearAntipodal.w < NearlyNegativeOne := by
    show -(1 - 1e-11) < NearlyNegativeOne
    unfold NearlyNegativeOne
    norm_num
  have hb1 : ¬ NearlyOne < qNearAntipodal.w := by
    rw [not_lt]
    show qNearAntipodal.w ≤ NearlyOne
    unfold NearlyOne NearlyNegativeOne at *
    linarith
  have hexp : Expmap (Logmap qNearAntipodal) = Quaternion.Identity := by
    rw [Logmap, if_neg hb1, if_pos hb2, Expmap, if_pos rfl]
  refine ⟨hu, ?_, ?_⟩
  · intro h
    rw [hexp] at h
    have hw := congrArg Quaternion.w h
    simp only [Quaternion.Identity, qNearAntipodal] at hw
    norm_num at hw
  · intro h
    rw [hexp] at h
    have hw := congrArg Quaternion.w h
    simp only [Quaternion.Identity, qNearAntipodal, Quaternion.neg_w] at hw
    norm_num at hw

end gtsam
